import Mathlib

/-!
Verification of the text-masking / translation middleware in
`deeplx_translate.py` (class `Filter`).  Python strings are embedded as
`List Char`; the regular expressions of the source are embedded by
hand-rolled matchers that implement exactly the semantics the `re`
module gives to the pattern strings as they appear in the file
(note: the raw strings of the source contain doubled backslashes, so
`\\|` is a literal backslash followed by an alternation bar, `\\n` is a
literal backslash followed by the letter n, and `\\s` is a literal
backslash followed by the letter s).  The outbound HTTP call is
external; its behaviour is abstracted into an `Outcome` value that the
embedded `translate` consumes.
-/

namespace DeepLX

/-- Boolean prefix test on character lists (embeds Python string prefix
matching used by the regex matchers below). -/
def isPref : List Char → List Char → Bool
  | [], _ => true
  | _ :: _, [] => false
  | a :: as, b :: bs => a = b && isPref as bs

/-- Boolean substring test: does `pat` occur contiguously in the text?
Embeds Python's `pat in text`. -/
def containsSub (pat : List Char) : List Char → Bool
  | [] => pat.isEmpty
  | c :: rest => isPref pat (c :: rest) || containsSub pat rest

/-- Leftmost occurrence search: returns `(before, after)` with
`before ++ pat ++ after` the input and `before` minimal, or `none` when
`pat` does not occur.  Embeds the scanning of Python's `re`/`str.find`
for a literal pattern. -/
def findSplit (pat : List Char) : List Char → Option (List Char × List Char)
  | [] => if isPref pat [] then some ([], []) else none
  | c :: t =>
    if isPref pat (c :: t) then some ([], (c :: t).drop pat.length)
    else
      match findSplit pat t with
      | none => none
      | some (pre, post) => some (c :: pre, post)

/-- The triple-backtick fence delimiter of `code_regex`. -/
def bt : List Char := ['`', '`', '`']

/-- The placeholder token `__CODE_BLOCK__` of the source. -/
def placeholder : List Char :=
  ['_', '_', 'C', 'O', 'D', 'E', '_', 'B', 'L', 'O', 'C', 'K', '_', '_']

/-- The core `CODE_BLOCK` of the placeholder (the placeholder without its
surrounding double underscores). -/
def cbCore : List Char := ['C', 'O', 'D', 'E', '_', 'B', 'L', 'O', 'C', 'K']

/-- The failure marker substring the hooks test for: `[翻译失败:`. -/
def failTag : List Char := ['[', '翻', '译', '失', '败', ':']

/-- The separator the fallback string of `translate` puts between the
original text and the annotation.  In the source it is written
`\\\\n\\\\n` inside an f-string, which denotes the six literal
characters backslash backslash n backslash backslash n. -/
def failSep : List Char := ['\\', '\\', 'n', '\\', '\\', 'n']

/-- Message prefix `翻译API错误: ` used for `requests` exceptions. -/
def apiErrHead : List Char := ['翻', '译', 'A', 'P', 'I', '错', '误', ':', ' ']

/-- Message prefix `翻译过程中发生意外错误: ` used for unexpected exceptions. -/
def unexpErrHead : List Char :=
  ['翻', '译', '过', '程', '中', '发', '生', '意', '外', '错', '误', ':', ' ']

/-- Fuelled extraction of fenced code regions.  One step of fuel handles
one match of `code_regex = ```(.*?)``` ` (with DOTALL): the leftmost
fence is opened at the first triple backtick and closed non-greedily at
the next one; the match is replaced by the placeholder and its inner
content pushed on the stash.  This computes, in a single pass, both
`re.findall(code_regex, m, DOTALL)` (second component) and
`re.sub(code_regex, "__CODE_BLOCK__", m, DOTALL)` (first component) of
the source.  When an opening fence has no closing fence the regex has
no match at all and the text is returned unchanged. -/
def extractFuel : Nat → List Char → List Char × List (List Char)
  | 0, t => (t, [])
  | Nat.succ n, t =>
    match findSplit bt t with
    | none => (t, [])
    | some (pre, rest) =>
      match findSplit bt rest with
      | none => (t, [])
      | some (code, rest2) =>
        let r := extractFuel n rest2
        (pre ++ placeholder ++ r.1, code :: r.2)

/-- Code-block extraction (`re.findall` + `re.sub` pair of the hooks). -/
def extract (t : List Char) : List Char × List (List Char) :=
  extractFuel t.length t

/-- One restoration step: `s.replace("__CODE_BLOCK__", "```code```", 1)`
of the source - replaces the leftmost placeholder occurrence, silently
doing nothing when there is none. -/
def restoreOne (code t : List Char) : List Char :=
  match findSplit placeholder t with
  | none => t
  | some (pre, post) => pre ++ bt ++ code ++ bt ++ post

/-- The restoration loop `for code in self.code_blocks: ... replace(..., 1)`
of the source, consuming the stash in extraction order. -/
def restoreAll (t : List Char) : List (List Char) → List Char
  | [] => t
  | c :: cs => restoreAll (restoreOne c t) cs

/-- Fuelled non-overlapping occurrence count of `pat` (the semantics of
Python's `str.count`), used to state the stash-length invariant. -/
def countOccFuel : Nat → List Char → List Char → Nat
  | 0, _, _ => 0
  | Nat.succ n, pat, t =>
    match findSplit pat t with
    | none => 0
    | some (_, post) => 1 + countOccFuel n pat post

/-- Non-overlapping occurrence count of `pat` in `t`. -/
def countOcc (pat t : List Char) : Nat := countOccFuel t.length pat t

/-- First alternative `^.*?\\` of the group in `table_regex` (the raw
string of the source doubles the backslashes, so the engine sees a
literal backslash, and the bar is an alternation): from a line start,
lazily consume non-newline characters up to and including the first
literal backslash of the line.  Returns `(consumed, rest)`. -/
def alt1 : List Char → Option (List Char × List Char)
  | [] => none
  | c :: t =>
    if c = '\\' then some (['\\'], t)
    else if c = '\n' then none
    else
      match alt1 t with
      | none => none
      | some (a, r) => some (c :: a, r)

/-- Second alternative `.*?\\n` of the group in `table_regex`: lazily
consume non-newline characters up to and including the first literal
backslash immediately followed by the letter n. -/
def alt2 : List Char → Option (List Char × List Char)
  | [] => none
  | c :: t =>
    if c = '\n' then none
    else if c = '\\' ∧ t.head? = some 'n' then some (['\\', 'n'], t.tail)
    else
      match alt2 t with
      | none => none
      | some (a, r) => some (c :: a, r)

/-- One repetition of the group `(?:^.*?\\|.*?\\n)` at a position: at a
line start the engine tries the `^`-anchored first alternative before
the second; elsewhere the anchor fails and only the second alternative
is tried. -/
def matchX (isStart : Bool) (t : List Char) : Option (List Char × List Char) :=
  if isStart then
    match alt1 t with
    | some r => some r
    | none => alt2 t
  else alt2 t

/-- Greedy continuation of the `+` repetition.  Every chunk matched by
the group ends in a backslash or in the letter n, never in a newline,
so all repetitions after the first start mid-line and only the second
alternative can apply. -/
def chainFuel : Nat → List Char → List Char × List Char
  | 0, t => ([], t)
  | Nat.succ n, t =>
    match alt2 t with
    | none => ([], t)
    | some (a, r) =>
      let p := chainFuel n r
      (a ++ p.1, p.2)

/-- Scan for the leftmost full match of `table_regex`, tracking whether
the current position is a line start (MULTILINE `^`).  The lookahead
`(?=\\n[^\\|\\s].*?\\|)` of the source ends in a bar before the closing
parenthesis, so it has an empty alternative and always succeeds; it
therefore constrains nothing and is not represented.  Returns
`(before, match, after)`. -/
def scanMatch (isStart : Bool) : List Char → Option (List Char × List Char × List Char)
  | [] => none
  | c :: t =>
    match matchX isStart (c :: t) with
    | some (a, r) =>
      let p := chainFuel r.length r
      some ([], a ++ p.1, p.2)
    | none =>
      match scanMatch (c = '\n') t with
      | none => none
      | some (pre, m, post) => some (c :: pre, m, post)

/-- Embeds `Filter.split_text_around_table`: `re.split(table_regex, text,
MULTILINE)` produces `[before, group1, after, ...]`; when a match exists
the source returns `[matches[0], matches[1]]`, silently dropping the
text after the first match, and otherwise returns `[text, ""]`. -/
def split_text_around_table (t : List Char) : List Char × List Char :=
  match scanMatch true t with
  | none => (t, [])
  | some (pre, m, _) => (pre, m)

/-- The replacement `m.group(0).replace(" ", "-")` applied to each
character of a match of the cleanup pattern. -/
def replSpace (c : Char) : Char := if c = ' ' then '-' else c

/-- Splits a leading run of literal backslashes off a list. -/
def bsRun : List Char → List Char × List Char
  | [] => ([], [])
  | c :: t =>
    if c = '\\' then
      let p := bsRun t
      ('\\' :: p.1, p.2)
    else ([], c :: t)

/-- Fuelled embedding of `Filter.clean_table_delimiters`: the pattern
`(\\|\\s*-+\\s*)+` of the source (raw string, doubled backslashes) is an
alternation whose first branch is a single literal backslash, and the
engine prefers it at every repetition, so each match of the pattern is
exactly a maximal run of literal backslashes; the match is replaced by
itself with spaces turned into dashes. -/
def cleanFuel : Nat → List Char → List Char
  | 0, t => t
  | Nat.succ _, [] => []
  | Nat.succ n, c :: rest =>
    if c = '\\' then
      let p := bsRun rest
      List.map replSpace ('\\' :: p.1) ++ cleanFuel n p.2
    else c :: cleanFuel n rest

/-- Embeds `Filter.clean_table_delimiters`. -/
def clean_table_delimiters (t : List Char) : List Char := cleanFuel t.length t

/-- Result of the outbound HTTP call of `Filter.translate`, which is an
external collaborator: `ok data` is a 2xx response whose JSON carries
the string `data`; `reqFail` is a `requests.exceptions.RequestException`
(connection failure, timeout or `raise_for_status`); `unexpFail` is any
other exception (JSON parsing, missing key, ...). -/
inductive Outcome where
  | ok (data : List Char)
  | reqFail (err : List Char)
  | unexpFail (err : List Char)
deriving DecidableEq

/-- Does the outcome correspond to a raised exception inside `translate`? -/
def isFailure : Outcome → Bool
  | .ok _ => false
  | .reqFail _ => true
  | .unexpFail _ => true

/-- Embeds `Filter.translate`: on success the `data` field is returned;
on either exception branch the function returns (never raises) the
original text followed by the literal separator and the bracketed
failure annotation `[翻译失败: <error message>]`.  The source and target
language arguments only feed the request payload and do not influence
the returned string. -/
def translate (text _source _target : List Char) : Outcome → List Char
  | .ok d => d
  | .reqFail e => text ++ failSep ++ failTag ++ [' '] ++ apiErrHead ++ e ++ [']']
  | .unexpFail e => text ++ failSep ++ failTag ++ [' '] ++ unexpErrHead ++ e ++ [']']

/-- A chat message record `{role, content}` (spec section 6). -/
structure Msg where
  role : List Char
  content : List Char
deriving DecidableEq

/-- The `Valves` configuration of the source. -/
structure Valves where
  api_url : List Char
  source_user : List Char
  target_user : List Char
  source_assistant : List Char
  target_assistant : List Char
deriving DecidableEq

/-- The role string `user`. -/
def userRole : List Char := ['u', 's', 'e', 'r']

/-- The role string `assistant`. -/
def assistantRole : List Char := ['a', 's', 's', 'i', 's', 't', 'a', 'n', 't']

/-- Result of a hook call: `ok` is a normal return carrying the (possibly
mutated) message list; `raised` models a Python exception escaping the
hook, carrying the message list as it stood (unmutated) at raise time. -/
inductive HookResult where
  | ok (msgs : List Msg)
  | raised (msgs : List Msg)
deriving DecidableEq

/-- The message list held by either kind of hook result. -/
def msgsOf : HookResult → List Msg
  | .ok m => m
  | .raised m => m

/-- Content of the first message with the given role. -/
def firstRoleContent (role : List Char) : List Msg → Option (List Char)
  | [] => none
  | m :: rest => if m.role = role then some m.content else firstRoleContent role rest

/-- Modelled from the spec: the host helpers `get_last_user_message` /
`get_last_assistant_message` (imported from `open_webui.utils.misc`, an
external collaborator not under src/) locate the most recent message of
the role by scanning the list backward and return its content, and
return `None` when no such message exists. -/
def lastRoleContent (role : List Char) (msgs : List Msg) : Option (List Char) :=
  firstRoleContent role msgs.reverse

/-- Replace the content of the first message with the given role. -/
def updateFirstRole (role c : List Char) : List Msg → List Msg
  | [] => []
  | m :: rest =>
    if m.role = role then { m with content := c } :: rest
    else m :: updateFirstRole role c rest

/-- Embeds the mutation loop `for message in reversed(body["messages"]):
if message["role"] == role: ...; break` - the last message with the
role gets the new content, everything else is untouched. -/
def updateLastRole (role c : List Char) (msgs : List Msg) : List Msg :=
  (updateFirstRole role c msgs.reverse).reverse

/-- The translation pipeline a hook runs on the located message content
when the two languages differ: mask the code blocks, split around the
(mis-)detected table, translate the part before it, reattach the table
part, clean the delimiters, and restore the code blocks. -/
def hookTranslated (source target : List Char) (out : Outcome) (content : List Char) :
    List Char :=
  let e := extract content
  let p := split_text_around_table e.1
  restoreAll (clean_table_delimiters (translate p.1 source target out ++ p.2)) e.2

/-- Embeds the shared body of `Filter.inlet` and `Filter.outlet`.  When
no message of the role exists the host helper yields `None` and the
immediately following `re.findall(code_regex, None)` of the source
raises a `TypeError` that nothing catches, before any mutation.  When
the languages coincide the pipeline and the mutation loop are skipped.
Otherwise the message is mutated only when the translated result does
not contain the failure marker. -/
def runHook (role source target : List Char) (out : Outcome) (msgs : List Msg) :
    HookResult :=
  match lastRoleContent role msgs with
  | none => .raised msgs
  | some content =>
    if source = target then .ok msgs
    else
      let tr := hookTranslated source target out content
      if containsSub failTag tr then .ok msgs
      else .ok (updateLastRole role tr msgs)

/-- Embeds `Filter.inlet` (direction: user message). -/
def inlet (v : Valves) (out : Outcome) (msgs : List Msg) : HookResult :=
  runHook userRole v.source_user v.target_user out msgs

/-- Embeds `Filter.outlet` (direction: assistant message). -/
def outlet (v : Valves) (out : Outcome) (msgs : List Msg) : HookResult :=
  runHook assistantRole v.source_assistant v.target_assistant out msgs

/-- No occurrence of `pat` in `A ++ X` starts strictly inside `A`. -/
def noStart (pat A X : List Char) : Prop :=
  ∀ A1 A2, A = A1 ++ A2 → A2 ≠ [] → isPref pat (A2 ++ X) = false

/-! ### Spec-side predicates used to state the table claims -/

/-- Splits a text into its lines (without the newline separators). -/
def linesOf (t : List Char) : List (List Char) :=
  t.foldr
    (fun c acc =>
      match acc with
      | [] => [[c]]
      | l :: ls => if c = '\n' then [] :: (l :: ls) else (c :: l) :: ls)
    [[]]

/-- Spec-side definition, following the claim's words: a table-separator
line made of pipes and dashes. -/
def isSepLine (l : List Char) : Bool :=
  !l.isEmpty && l.all (fun c => c = '|' || c = '-') && l.contains '|' && l.contains '-'

/-- Spec-side definition, following the claim's words: the text contains
a line with a pipe character followed immediately by a table-separator
line. -/
def adjCheck : List (List Char) → Bool
  | l1 :: l2 :: rest => (l1.contains '|' && isSepLine l2) || adjCheck (l2 :: rest)
  | _ => false

/-- Spec-side definition: a well-formed Markdown table in the sense of
the claim. -/
def wellFormedTable (t : List Char) : Bool := adjCheck (linesOf t)

/-- Spec-side definition: does the region start at a separator line? -/
def startsWithSepLine (t : List Char) : Bool :=
  match linesOf t with
  | l :: _ => isSepLine l
  | [] => false

/-! ### Concrete sample inputs used by witnesses and counterexamples -/

/-- The text `__CODE_BLOCK` followed by one fenced region containing `x`:
it does not contain the placeholder token, yet masking makes the prefix
collide with the inserted placeholder. -/
def sampleOne : List Char :=
  ['_', '_', 'C', 'O', 'D', 'E', '_', 'B', 'L', 'O', 'C', 'K'] ++ bt ++ ['x'] ++ bt

/-- A text with two fenced regions and no `CODE_BLOCK` substring. -/
def sampleTwo : List Char :=
  ['a'] ++ bt ++ ['u'] ++ bt ++ [' '] ++ bt ++ ['v'] ++ bt ++ ['b']

/-- A text with one fenced region and no `CODE_BLOCK` substring. -/
def sampleThree : List Char := ['h'] ++ bt ++ ['z'] ++ bt

/-- The text `a\b` (no pipe character, one backslash). -/
def bsText : List Char := ['a', '\\', 'b']

/-- A well-formed Markdown table text `a|b`, separator `|-|`, row `c|d`. -/
def tableText : List Char :=
  ['a', '|', 'b', '\n', '|', '-', '|', '\n', 'c', '|', 'd']

/-- The text `| - |` - whitespace adjacent to a table-separator dash. -/
def spacedSep : List Char := ['|', ' ', '-', ' ', '|']

/-- A successful translation result that happens to contain the literal
failure marker. -/
def tagData : List Char := ['o', 'k', ' '] ++ failTag ++ ['!']

/-- The default configuration of `Valves` (user direction auto to en,
assistant direction en to zh). -/
def vDemo : Valves :=
  ⟨[], ['a', 'u', 't', 'o'], ['e', 'n'], ['e', 'n'], ['z', 'h']⟩

/-- A configuration whose languages coincide in both directions. -/
def vSame : Valves :=
  ⟨[], ['e', 'n'], ['e', 'n'], ['z', 'h'], ['z', 'h']⟩

/-- A one-element message list holding the user message `hi`. -/
def msgsDemo : List Msg := [⟨userRole, ['h', 'i']⟩]

/-! ### Lemmas about the string primitives -/

theorem isPref_append : ∀ (p r : List Char), isPref p (p ++ r) = true
  | [], _ => rfl
  | a :: as, r => by simp [isPref, isPref_append as r]

theorem isPref_eq_take : ∀ (p l : List Char), isPref p l = true → p ++ l.drop p.length = l
  | [], _, _ => rfl
  | a :: as, [], h => by simp [isPref] at h
  | a :: as, b :: bs, h => by
    simp [isPref] at h
    obtain ⟨rfl, h2⟩ := h
    simpa using isPref_eq_take as bs h2

theorem prefMonoR : ∀ (p x z : List Char), isPref p x = true → isPref p (x ++ z) = true
  | [], _, _, _ => rfl
  | a :: as, [], _, h => by simp [isPref] at h
  | a :: as, b :: bs, z, h => by
    simp [isPref] at h ⊢
    exact ⟨h.1, prefMonoR as bs z h.2⟩

theorem prefTake : ∀ (pat A X : List Char), isPref pat (A ++ X) = true →
    A.length ≤ pat.length → A = pat.take A.length
  | _, [], _, _, _ => rfl
  | [], a :: as, _, _, hl => by simp at hl
  | p :: ps, a :: as, X, h, hl => by
    simp [isPref] at h
    obtain ⟨h1, h2⟩ := h
    simp [List.take]
    exact ⟨h1.symm, prefTake ps as X h2 (by simpa using hl)⟩

theorem prefLong : ∀ (pat A X : List Char), isPref pat (A ++ X) = true →
    pat.length ≤ A.length → isPref pat A = true
  | [], _, _, _, _ => rfl
  | p :: ps, [], _, _, hl => by simp at hl
  | p :: ps, a :: as, X, h, hl => by
    simp [isPref] at h ⊢
    exact ⟨h.1, prefLong ps as X h.2 (by simpa using hl)⟩

theorem headMem (pat A : List Char) (h : Char) (X : List Char)
    (hp : isPref pat (A ++ h :: X) = true) (hl : A.length < pat.length) : h ∈ pat := by
  have h2 : isPref pat ((A ++ [h]) ++ X) = true := by simpa [List.append_assoc] using hp
  have h3 : A ++ [h] = pat.take (A ++ [h]).length :=
    prefTake pat (A ++ [h]) X h2 (by simp; omega)
  have h4 := (List.take_append_drop (A ++ [h]).length pat).symm
  rw [← h3] at h4
  rw [h4]
  simp

theorem contains_of_isPref : ∀ (pat x : List Char), isPref pat x = true →
    containsSub pat x = true
  | [], [], _ => rfl
  | a :: as, [], h => by simp [isPref] at h
  | pat, c :: t, h => by simp [containsSub, h]

theorem containsSub_monoR : ∀ (pat z q : List Char), containsSub pat q = true →
    containsSub pat (z ++ q) = true
  | _, [], _, h => h
  | pat, c :: z, q, h => by simp [containsSub, containsSub_monoR pat z q h]

theorem containsSub_nil : ∀ (t : List Char), containsSub [] t = true
  | [] => rfl
  | _ :: _ => by simp [containsSub, isPref]

theorem containsSub_monoL : ∀ (pat p z : List Char), containsSub pat p = true →
    containsSub pat (p ++ z) = true
  | [], p, z, _ => containsSub_nil (p ++ z)
  | a :: as, [], _, h => by simp [containsSub] at h
  | pat, c :: p, z, h => by
    simp [containsSub] at h ⊢
    rcases h with h | h
    · exact Or.inl (prefMonoR pat (c :: p) z h)
    · exact Or.inr (containsSub_monoL pat p z h)

theorem contains_mid (pat u v : List Char) : containsSub pat (u ++ pat ++ v) = true := by
  have := containsSub_monoR pat u (pat ++ v)
    (contains_of_isPref pat (pat ++ v) (isPref_append pat v))
  simpa [List.append_assoc] using this

theorem containsSub_decomp : ∀ (pat t : List Char), containsSub pat t = true →
    ∃ u v, t = u ++ pat ++ v
  | pat, [], h => by
    cases pat with
    | nil => exact ⟨[], [], rfl⟩
    | cons a as => simp [containsSub] at h
  | pat, c :: t, h => by
    simp [containsSub] at h
    rcases h with h | h
    · exact ⟨[], (c :: t).drop pat.length, by simpa using (isPref_eq_take pat (c :: t) h).symm⟩
    · obtain ⟨u, v, huv⟩ := containsSub_decomp pat t h
      exact ⟨c :: u, v, by simp [huv]⟩

theorem contains_trans (a b c : List Char) (hab : containsSub a b = true)
    (hbc : containsSub b c = true) : containsSub a c = true := by
  obtain ⟨x, y, hb⟩ := containsSub_decomp a b hab
  obtain ⟨u, v, hc⟩ := containsSub_decomp b c hbc
  subst hb
  have : c = (u ++ x) ++ a ++ (y ++ v) := by simp [hc]
  rw [this]
  exact contains_mid a (u ++ x) (y ++ v)

theorem containsSub_append_free : ∀ (p0 : Char) (ps A q : List Char),
    (∀ x ∈ A, ¬ x = p0) → containsSub (p0 :: ps) (A ++ q) = containsSub (p0 :: ps) q
  | _, _, [], _, _ => rfl
  | p0, ps, a :: A, q, hfree => by
    have ha : ¬ p0 = a := fun e => hfree a (by simp) e.symm
    simp [containsSub, isPref, ha]
    exact containsSub_append_free p0 ps A q (fun x hx => hfree x (by simp [hx]))

theorem findSplit_eq : ∀ (pat t pre post : List Char),
    findSplit pat t = some (pre, post) → t = pre ++ pat ++ post
  | pat, [], pre, post, h => by
    cases pat with
    | nil =>
      simp [findSplit, isPref] at h
      obtain ⟨rfl, rfl⟩ := h
      rfl
    | cons a as => simp [findSplit, isPref] at h
  | pat, c :: t, pre, post, h => by
    by_cases hp : isPref pat (c :: t)
    · simp [findSplit, hp] at h
      obtain ⟨rfl, rfl⟩ := h
      simpa using (isPref_eq_take pat (c :: t) hp).symm
    · simp [findSplit, hp] at h
      cases hft : findSplit pat t with
      | none => rw [hft] at h; simp at h
      | some pr =>
        rw [hft] at h
        simp at h
        obtain ⟨rfl, rfl⟩ := h
        have := findSplit_eq pat t pr.1 pr.2 (by rw [hft])
        simp [this]

theorem findSplit_none_of : ∀ (pat t : List Char), containsSub pat t = false →
    findSplit pat t = none
  | pat, [], h => by
    cases pat with
    | nil => simp [containsSub] at h
    | cons a as => simp [findSplit, isPref]
  | pat, c :: t, h => by
    simp [containsSub] at h
    obtain ⟨h1, h2⟩ := h
    simp [findSplit, h1, findSplit_none_of pat t h2]

theorem findSplit_self (c : Char) (p x : List Char) :
    findSplit (c :: p) ((c :: p) ++ x) = some ([], x) := by
  have h : isPref (c :: p) (c :: (p ++ x)) = true := by
    simpa using isPref_append (c :: p) x
  simp [findSplit, h]

theorem findSplit_skip : ∀ (pat A X : List Char), noStart pat A X →
    findSplit pat (A ++ X) =
      (match findSplit pat X with
       | none => none
       | some (p, q) => some (A ++ p, q))
  | pat, [], X, _ => by
    cases hfs : findSplit pat X with
    | none => simp [hfs]
    | some pr => obtain ⟨p, q⟩ := pr; simp [hfs]
  | pat, a :: A, X, hns => by
    have h1 : isPref pat (a :: (A ++ X)) = false := by
      simpa using hns [] (a :: A) rfl (by simp)
    have ih := findSplit_skip pat A X
      (fun A1 A2 h hne => hns (a :: A1) A2 (by simp [h]) hne)
    simp only [List.cons_append, findSplit, List.append_eq, h1]
    rw [ih]
    cases hfs : findSplit pat X with
    | none => simp [hfs]
    | some pr => obtain ⟨p, q⟩ := pr; simp [hfs]

theorem phLen : placeholder.length = 14 := rfl

theorem cbInPH : containsSub cbCore placeholder = true := by decide

theorem btNotInPH : '`' ∈ placeholder → False := by decide

theorem borderFact : ∀ n, n ≤ 13 → 1 ≤ n →
    placeholder.take n ++ placeholder.take (14 - n) = placeholder →
    containsSub cbCore (placeholder.take n) = true := by decide

theorem contains_cb_of_ph (t : List Char) (h : containsSub placeholder t = true) :
    containsSub cbCore t = true :=
  contains_trans cbCore placeholder t cbInPH h

theorem noStart_cbFree (A X : List Char) (hA : containsSub cbCore A = false) :
    noStart placeholder A (placeholder ++ X) := by
  intro A1 A2 hsplit hne
  cases hp : isPref placeholder (A2 ++ (placeholder ++ X)) with
  | false => rfl
  | true =>
    exfalso
    by_cases hl : 14 ≤ A2.length
    · have h1 : isPref placeholder A2 = true :=
        prefLong placeholder A2 (placeholder ++ X) hp (by rw [phLen]; exact hl)
      have h2 : containsSub cbCore A2 = true :=
        contains_cb_of_ph A2 (contains_of_isPref placeholder A2 h1)
      have h3 : containsSub cbCore A = true := by
        rw [hsplit]; exact containsSub_monoR cbCore A1 A2 h2
      rw [h3] at hA; cases hA
    · have hlt : A2.length < 14 := by omega
      have hA2 : A2 = placeholder.take A2.length :=
        prefTake placeholder A2 (placeholder ++ X) hp (by rw [phLen]; omega)
      have hsplit2 : A2 ++ (placeholder ++ X) =
          (A2 ++ placeholder.take (14 - A2.length)) ++
            (placeholder.drop (14 - A2.length) ++ X) := by
        simp only [List.append_assoc]
        congr 1
        rw [← List.append_assoc, List.take_append_drop]
      have hlen : (A2 ++ placeholder.take (14 - A2.length)).length = 14 := by
        simp [List.length_take, phLen]
        omega
      have hp2 : isPref placeholder
          ((A2 ++ placeholder.take (14 - A2.length)) ++
            (placeholder.drop (14 - A2.length) ++ X)) = true := by
        rw [← hsplit2]; exact hp
      have hB : A2 ++ placeholder.take (14 - A2.length) =
          placeholder.take (A2 ++ placeholder.take (14 - A2.length)).length :=
        prefTake placeholder _ _ hp2 (by rw [hlen, phLen])
      rw [hlen] at hB
      have hPH : placeholder.take 14 = placeholder := by decide
      rw [hPH] at hB
      have hn1 : 1 ≤ A2.length := by
        cases A2 with
        | nil => exact absurd rfl hne
        | cons x xs => simp
      have hb := borderFact A2.length (by omega) hn1 (by rw [← hA2]; exact hB)
      rw [← hA2] at hb
      have h3 : containsSub cbCore A = true := by
        rw [hsplit]; exact containsSub_monoR cbCore A1 A2 hb
      rw [h3] at hA; cases hA

theorem lastOfSplit (A1 A2 B : List Char) (c : Char) (h : A1 ++ A2 = B ++ [c])
    (hne : A2 ≠ []) : ∃ C, A2 = C ++ [c] := by
  rcases List.eq_nil_or_concat A2 with h2 | ⟨C, a, h2⟩
  · exact absurd h2 hne
  · rw [List.concat_eq_append] at h2
    subst h2
    have h3 : ((A1 ++ C) ++ [a]).getLast? = (B ++ [c]).getLast? := by
      rw [List.append_assoc, h]
    rw [List.getLast?_concat, List.getLast?_concat] at h3
    obtain rfl : a = c := by injection h3
    exact ⟨C, rfl⟩

theorem findSplit_ph_self (X : List Char) :
    findSplit placeholder (placeholder ++ X) = some ([], X) :=
  findSplit_self '_' ['_', 'C', 'O', 'D', 'E', '_', 'B', 'L', 'O', 'C', 'K', '_', '_'] X

theorem findSplit_PH_exact (A X : List Char) (hA : containsSub cbCore A = false) :
    findSplit placeholder (A ++ (placeholder ++ X)) = some (A, X) := by
  rw [findSplit_skip placeholder A (placeholder ++ X) (noStart_cbFree A X hA)]
  rw [findSplit_ph_self]
  simp

theorem noStart_bt (B X : List Char)
    (h : containsSub placeholder (B ++ ['`']) = false) :
    noStart placeholder (B ++ ['`']) X := by
  intro A1 A2 hsplit hne
  cases hp : isPref placeholder (A2 ++ X) with
  | false => rfl
  | true =>
    exfalso
    by_cases hl : 14 ≤ A2.length
    · have h1 : isPref placeholder A2 = true :=
        prefLong placeholder A2 X hp (by rw [phLen]; exact hl)
      have h2 : containsSub placeholder (B ++ ['`']) = true := by
        rw [hsplit]
        exact containsSub_monoR placeholder A1 A2 (contains_of_isPref placeholder A2 h1)
      rw [h2] at h; cases h
    · obtain ⟨C, rfl⟩ := lastOfSplit A1 A2 B '`' hsplit.symm hne
      have hp2 : isPref placeholder (C ++ '`' :: X) = true := by
        simpa [List.append_assoc] using hp
      have hC : C.length < 14 := by
        have := List.length_append C ['`']
        omega
      exact btNotInPH (headMem placeholder C '`' X hp2 (by rw [phLen]; exact hC))

theorem restore_append : ∀ (s : List (List Char)) (B X : List Char),
    containsSub placeholder (B ++ ['`']) = false →
    restoreAll ((B ++ ['`']) ++ X) s = (B ++ ['`']) ++ restoreAll X s
  | [], _, _, _ => rfl
  | c :: s', B, X, h => by
    show restoreAll (restoreOne c ((B ++ ['`']) ++ X)) s' =
      (B ++ ['`']) ++ restoreAll (restoreOne c X) s'
    rw [restoreOne, findSplit_skip placeholder (B ++ ['`']) X (noStart_bt B X h)]
    cases hfs : findSplit placeholder X with
    | none =>
      rw [restoreOne, hfs]
      exact restore_append s' B X h
    | some pr =>
      obtain ⟨p, q⟩ := pr
      rw [restoreOne, hfs]
      have := restore_append s' B (p ++ (bt ++ (c ++ (bt ++ q)))) h
      simpa [List.append_assoc] using this

theorem contains_split_sep (pat : List Char) (hne : pat ≠ [])
    (hbt : '`' ∈ pat → False) :
    ∀ X Y, containsSub pat (X ++ '`' :: Y) = true →
      containsSub pat X = true ∨ containsSub pat Y = true := by
  intro X
  induction X with
  | nil =>
    intro Y h
    cases pat with
    | nil => exact absurd rfl hne
    | cons p0 ps =>
      simp [containsSub] at h
      rcases h with h | h
      · simp [isPref] at h
        exact absurd (by simp [h.1]) hbt
      · exact Or.inr h
  | cons x X ih =>
    intro Y h
    simp only [List.cons_append, containsSub, Bool.or_eq_true] at h
    rcases h with h | h
    · by_cases hl : pat.length ≤ (x :: X).length
      · exact Or.inl (contains_of_isPref pat (x :: X)
          (prefLong pat (x :: X) ('`' :: Y) (by simpa using h) hl))
      · exact absurd (headMem pat (x :: X) '`' Y (by simpa using h) (by omega)) hbt
    · rcases ih Y h with h | h
      · exact Or.inl (by simp [containsSub, h])
      · exact Or.inr h

theorem contains_free_left (pat p z : List Char)
    (h : containsSub pat (p ++ z) = false) : containsSub pat p = false := by
  cases hc : containsSub pat p with
  | false => rfl
  | true => rw [containsSub_monoL pat p z hc] at h; cases h

theorem contains_free_right (pat z q : List Char)
    (h : containsSub pat (z ++ q) = false) : containsSub pat q = false := by
  cases hc : containsSub pat q with
  | false => rfl
  | true => rw [containsSub_monoR pat z q hc] at h; cases h

theorem cbNotNil : cbCore ≠ [] := by decide

theorem btNotInCB : '`' ∈ cbCore → False := by decide

theorem containsSub_cb_nil : containsSub cbCore [] = false := rfl

theorem contains_free_fence (pre code : List Char)
    (hp : containsSub cbCore pre = false) (hc : containsSub cbCore code = false) :
    containsSub cbCore
      (pre ++ '`' :: ('`' :: ('`' :: (code ++ '`' :: ('`' :: ['`']))))) = false := by
  cases hT : containsSub cbCore
      (pre ++ '`' :: ('`' :: ('`' :: (code ++ '`' :: ('`' :: ['`']))))) with
  | false => rfl
  | true =>
    exfalso
    rcases contains_split_sep cbCore cbNotNil btNotInCB pre _ hT with h | h
    · rw [h] at hp; cases hp
    · rcases contains_split_sep cbCore cbNotNil btNotInCB [] _ h with h | h
      · rw [containsSub_cb_nil] at h; cases h
      · rcases contains_split_sep cbCore cbNotNil btNotInCB [] _ h with h | h
        · rw [containsSub_cb_nil] at h; cases h
        · rcases contains_split_sep cbCore cbNotNil btNotInCB code _ h with h | h
          · rw [h] at hc; cases hc
          · rcases contains_split_sep cbCore cbNotNil btNotInCB [] _ h with h | h
            · rw [containsSub_cb_nil] at h; cases h
            · rcases contains_split_sep cbCore cbNotNil btNotInCB [] _ h with h | h
              · rw [containsSub_cb_nil] at h; cases h
              · rw [containsSub_cb_nil] at h; cases h

theorem ph_free_fence (pre code : List Char)
    (hp : containsSub cbCore pre = false) (hc : containsSub cbCore code = false) :
    containsSub placeholder (pre ++ (bt ++ (code ++ bt))) = false := by
  cases hT : containsSub placeholder (pre ++ (bt ++ (code ++ bt))) with
  | false => rfl
  | true =>
    exfalso
    have h2 := contains_cb_of_ph _ hT
    have h3 : containsSub cbCore
        (pre ++ '`' :: ('`' :: ('`' :: (code ++ '`' :: ('`' :: ['`']))))) = true := by
      simpa [bt, List.append_assoc] using h2
    rw [contains_free_fence pre code hp hc] at h3
    cases h3

theorem roundtripAux : ∀ (fuel : Nat) (t : List Char), t.length ≤ fuel →
    containsSub cbCore t = false →
    restoreAll (extractFuel fuel t).1 (extractFuel fuel t).2 = t
  | 0, t, hle, _ => by
    have ht : t = [] := List.length_eq_zero.mp (by omega)
    subst ht; rfl
  | Nat.succ n, t, hle, hfree => by
    cases h1 : findSplit bt t with
    | none => simp [extractFuel, h1, restoreAll]
    | some pr1 =>
      obtain ⟨pre, rest⟩ := pr1
      cases h2 : findSplit bt rest with
      | none => simp [extractFuel, h1, h2, restoreAll]
      | some pr2 =>
        obtain ⟨code, rest2⟩ := pr2
        have ht : t = pre ++ bt ++ rest := findSplit_eq bt t pre rest h1
        have hr : rest = code ++ bt ++ rest2 := findSplit_eq bt rest code rest2 h2
        have ht' : t = pre ++ (bt ++ (code ++ (bt ++ rest2))) := by
          rw [ht, hr]; simp [List.append_assoc]
        have hlen : rest2.length ≤ n := by
          rw [ht'] at hle
          simp [List.length_append, bt] at hle
          omega
        have hfree' : containsSub cbCore
            (pre ++ (bt ++ (code ++ (bt ++ rest2)))) = false := by
          rw [← ht']; exact hfree
        have hfreePre : containsSub cbCore pre = false :=
          contains_free_left _ _ _ hfree'
        have hfreeRest : containsSub cbCore (code ++ (bt ++ rest2)) = false :=
          contains_free_right _ bt _ (contains_free_right _ pre _ hfree')
        have hfreeCode : containsSub cbCore code = false :=
          contains_free_left _ _ _ hfreeRest
        have hfree2 : containsSub cbCore rest2 = false :=
          contains_free_right _ bt _ (contains_free_right _ code _ hfreeRest)
        have ih := roundtripAux n rest2 hlen hfree2
        simp only [extractFuel, h1, h2]
        show restoreAll
          (restoreOne code (pre ++ placeholder ++ (extractFuel n rest2).1))
          (extractFuel n rest2).2 = t
        have hfse : findSplit placeholder
            (pre ++ placeholder ++ (extractFuel n rest2).1) =
            some (pre, (extractFuel n rest2).1) := by
          rw [List.append_assoc]
          exact findSplit_PH_exact pre (extractFuel n rest2).1 hfreePre
        rw [restoreOne, hfse]
        show restoreAll (pre ++ bt ++ code ++ bt ++ (extractFuel n rest2).1)
          (extractFuel n rest2).2 = t
        have hfence : containsSub placeholder
            ((pre ++ bt ++ code ++ ['`', '`']) ++ ['`']) = false := by
          have := ph_free_fence pre code hfreePre hfreeCode
          simpa [bt, List.append_assoc] using this
        have hra := restore_append (extractFuel n rest2).2
          (pre ++ bt ++ code ++ ['`', '`']) (extractFuel n rest2).1 hfence
        have hshape : pre ++ bt ++ code ++ bt ++ (extractFuel n rest2).1 =
            ((pre ++ bt ++ code ++ ['`', '`']) ++ ['`']) ++ (extractFuel n rest2).1 := by
          simp [bt, List.append_assoc]
        rw [hshape, hra, ih, ht']
        simp [bt, List.append_assoc]

theorem ph_free_of_cb_free (t : List Char) (h : containsSub cbCore t = false) :
    containsSub placeholder t = false := by
  cases hc : containsSub placeholder t with
  | false => rfl
  | true => rw [contains_cb_of_ph t hc] at h; cases h

theorem countSupp : ∀ (m : Nat) (x : List Char), containsSub placeholder x = false →
    countOccFuel m placeholder x = 0
  | 0, _, _ => rfl
  | Nat.succ n, x, h => by simp [countOccFuel, findSplit_none_of placeholder x h]

theorem countAux : ∀ (fuel : Nat) (t : List Char) (m : Nat), t.length ≤ fuel →
    containsSub cbCore t = false → (extractFuel fuel t).1.length ≤ m →
    countOccFuel m placeholder (extractFuel fuel t).1 = (extractFuel fuel t).2.length
  | 0, t, m, hle, hfree, _ => by
    have ht : t = [] := List.length_eq_zero.mp (by omega)
    subst ht
    exact countSupp m [] (by decide)
  | Nat.succ n, t, m, hle, hfree, hm => by
    cases h1 : findSplit bt t with
    | none =>
      simp only [extractFuel, h1, List.length_nil]
      exact countSupp m t (ph_free_of_cb_free t hfree)
    | some pr1 =>
      obtain ⟨pre, rest⟩ := pr1
      cases h2 : findSplit bt rest with
      | none =>
        simp only [extractFuel, h1, h2, List.length_nil]
        exact countSupp m t (ph_free_of_cb_free t hfree)
      | some pr2 =>
        obtain ⟨code, rest2⟩ := pr2
        have ht : t = pre ++ bt ++ rest := findSplit_eq bt t pre rest h1
        have hr : rest = code ++ bt ++ rest2 := findSplit_eq bt rest code rest2 h2
        have ht' : t = pre ++ (bt ++ (code ++ (bt ++ rest2))) := by
          rw [ht, hr]; simp [List.append_assoc]
        have hlen : rest2.length ≤ n := by
          rw [ht'] at hle
          simp [List.length_append, bt] at hle
          omega
        have hfree' : containsSub cbCore
            (pre ++ (bt ++ (code ++ (bt ++ rest2)))) = false := by
          rw [← ht']; exact hfree
        have hfreePre : containsSub cbCore pre = false :=
          contains_free_left _ _ _ hfree'
        have hfreeRest : containsSub cbCore (code ++ (bt ++ rest2)) = false :=
          contains_free_right _ bt _ (contains_free_right _ pre _ hfree')
        have hfree2 : containsSub cbCore rest2 = false :=
          contains_free_right _ bt _ (contains_free_right _ code _ hfreeRest)
        simp only [extractFuel, h1, h2] at hm ⊢
        cases m with
        | zero =>
          exfalso
          simp [List.length_append, phLen] at hm
        | succ k =>
          have hfse : findSplit placeholder
              (pre ++ placeholder ++ (extractFuel n rest2).1) =
              some (pre, (extractFuel n rest2).1) := by
            rw [List.append_assoc]
            exact findSplit_PH_exact pre (extractFuel n rest2).1 hfreePre
          simp only [countOccFuel, hfse]
          have hk : (extractFuel n rest2).1.length ≤ k := by
            simp [List.length_append, phLen] at hm
            omega
          rw [countAux n rest2 k hlen hfree2 hk]
          simp only [List.length_cons]
          omega

theorem phTail_eq : placeholder = '_' :: ['_', 'C', 'O', 'D', 'E', '_', 'B', 'L', 'O', 'C', 'K', '_', '_'] := rfl

theorem underscoreNotInTag : '_' ∈ failTag → False := by decide

theorem tagHeadNotInPH : ∀ x ∈ placeholder, ¬ x = '[' := by decide

theorem tagTail_eq : failTag = '[' :: ['翻', '译', '失', '败', ':'] := rfl

theorem tag_in_parts : ∀ (x p q : List Char),
    findSplit placeholder x = some (p, q) → containsSub failTag x = true →
    containsSub failTag p = true ∨ containsSub failTag q = true
  | [], p, q, hfs, _ => by simp [findSplit, isPref, placeholder] at hfs
  | c :: x, p, q, hfs, hct => by
    by_cases hp : isPref placeholder (c :: x)
    · simp [findSplit, hp] at hfs
      obtain ⟨rfl, rfl⟩ := hfs
      right
      have hx : placeholder ++ (c :: x).drop placeholder.length = c :: x :=
        isPref_eq_take placeholder (c :: x) hp
      rw [← hx] at hct
      rw [tagTail_eq] at hct ⊢
      rwa [containsSub_append_free '[' ['翻', '译', '失', '败', ':'] placeholder _
        tagHeadNotInPH] at hct
    · simp [findSplit, hp] at hfs
      cases hfx : findSplit placeholder x with
      | none => rw [hfx] at hfs; simp at hfs
      | some pr =>
        obtain ⟨p', q'⟩ := pr
        rw [hfx] at hfs
        simp at hfs
        obtain ⟨rfl, rfl⟩ := hfs
        simp only [containsSub, Bool.or_eq_true] at hct
        rcases hct with h | h
        · have hsome : findSplit placeholder (c :: x) = some (c :: p', q') := by
            simp [findSplit, hp, hfx]
          have hx := findSplit_eq placeholder (c :: x) (c :: p') q' hsome
          have h' : isPref failTag
              ((c :: p') ++ ('_' :: (['_', 'C', 'O', 'D', 'E', '_', 'B', 'L', 'O', 'C', 'K', '_', '_'] ++ q'))) = true := by
            rw [hx] at h
            simpa [phTail_eq, List.append_assoc] using h
          by_cases hl : failTag.length ≤ (c :: p').length
          · exact Or.inl (contains_of_isPref _ _ (prefLong failTag (c :: p') _ h' hl))
          · exact absurd (headMem failTag (c :: p') '_' _ h' (by omega))
              underscoreNotInTag
        · rcases tag_in_parts x p' q' hfx h with h2 | h2
          · exact Or.inl (by simp [containsSub, h2])
          · exact Or.inr h2

theorem restoreOne_tag (c x : List Char) (h : containsSub failTag x = true) :
    containsSub failTag (restoreOne c x) = true := by
  cases hfs : findSplit placeholder x with
  | none => rw [restoreOne, hfs]; exact h
  | some pr =>
    obtain ⟨p, q⟩ := pr
    rw [restoreOne, hfs]
    rcases tag_in_parts x p q hfs h with h2 | h2
    · have := containsSub_monoL failTag p (bt ++ (c ++ (bt ++ q))) h2
      simpa [List.append_assoc] using this
    · have := containsSub_monoR failTag (p ++ (bt ++ (c ++ bt))) q h2
      simpa [List.append_assoc] using this

theorem restoreAll_tag : ∀ (s : List (List Char)) (x : List Char),
    containsSub failTag x = true → containsSub failTag (restoreAll x s) = true
  | [], _, h => h
  | c :: s', x, h => restoreAll_tag s' (restoreOne c x) (restoreOne_tag c x h)

theorem bsRun_split : ∀ t : List Char, (bsRun t).1 ++ (bsRun t).2 = t
  | [] => rfl
  | c :: t => by
    by_cases h : c = '\\'
    · simp [bsRun, h, bsRun_split t]
    · simp [bsRun, h]

theorem bsRun_all : ∀ t : List Char, ∀ x ∈ (bsRun t).1, x = '\\'
  | [] => by intro x hx; simp [bsRun] at hx
  | c :: t => by
    intro x hx
    by_cases h : c = '\\'
    · simp [bsRun, h] at hx
      rcases hx with hx | hx
      · exact hx
      · exact bsRun_all t x hx
    · simp [bsRun, h] at hx

theorem bsRun_len (t : List Char) : (bsRun t).2.length ≤ t.length := by
  have := congrArg List.length (bsRun_split t)
  simp [List.length_append] at this
  omega

theorem map_repl_id : ∀ l : List Char, (∀ x ∈ l, x = '\\') →
    List.map replSpace l = l
  | [], _ => rfl
  | c :: l, h => by
    have hc : c = '\\' := h c (by simp)
    have h1 : replSpace c = c := by rw [hc]; decide
    simp [h1, map_repl_id l (fun x hx => h x (by simp [hx]))]

theorem cleanFuel_id : ∀ (n : Nat) (t : List Char), t.length ≤ n → cleanFuel n t = t
  | 0, t, _ => rfl
  | Nat.succ n, [], _ => rfl
  | Nat.succ n, c :: rest, hle => by
    by_cases h : c = '\\'
    · have hall : ∀ x ∈ '\\' :: (bsRun rest).1, x = '\\' := by
        intro x hx
        simp at hx
        rcases hx with hx | hx
        · exact hx
        · exact bsRun_all rest x hx
      have hrec := cleanFuel_id n (bsRun rest).2
        (le_trans (bsRun_len rest) (by simpa using hle))
      simp [cleanFuel, h, map_repl_id _ hall, hrec, bsRun_split rest]
    · simp [cleanFuel, h, cleanFuel_id n rest (by simpa using hle)]

/-- The delimiter cleanup of the source is the identity on every input:
each match of its pattern is a run of literal backslashes, which
contains no space for the replacement to touch. -/
theorem clean_id (t : List Char) : clean_table_delimiters t = t :=
  cleanFuel_id t.length t le_rfl

theorem alt1_none : ∀ t : List Char, (∀ c ∈ t, ¬ c = '\\') → alt1 t = none
  | [], _ => rfl
  | c :: t, h => by
    have hc : ¬ c = '\\' := h c (by simp)
    by_cases hn : c = '\n'
    · simp [alt1, hc, hn]
    · simp [alt1, hc, hn, alt1_none t (fun x hx => h x (by simp [hx]))]

theorem alt2_none : ∀ t : List Char, (∀ c ∈ t, ¬ c = '\\') → alt2 t = none
  | [], _ => rfl
  | c :: t, h => by
    have hc : ¬ c = '\\' := h c (by simp)
    by_cases hn : c = '\n'
    · simp [alt2, hn]
    · simp [alt2, hn, hc, alt2_none t (fun x hx => h x (by simp [hx]))]

theorem scanMatch_none : ∀ (t : List Char) (flag : Bool),
    (∀ c ∈ t, ¬ c = '\\') → scanMatch flag t = none
  | [], _, _ => rfl
  | c :: t, flag, h => by
    have h1 : matchX flag (c :: t) = none := by
      cases flag with
      | true => simp [matchX, alt1_none _ h, alt2_none _ h]
      | false => simp [matchX, alt2_none _ h]
    simp [scanMatch, h1, scanMatch_none t (c = '\n') (fun x hx => h x (by simp [hx]))]

/-- With no backslash in the text the mangled `table_regex` has no match
at all and `split_text_around_table` returns the whole text and `""`. -/
theorem split_no_bs (t : List Char) (h : ∀ c ∈ t, ¬ c = '\\') :
    split_text_around_table t = (t, []) := by
  simp [split_text_around_table, scanMatch_none t true h]

theorem updateFirst_self : ∀ (role : List Char) (l : List Msg) (c : List Char),
    firstRoleContent role l = some c → updateFirstRole role c l = l
  | role, [], c, h => by simp [firstRoleContent] at h
  | role, m :: rest, c, h => by
    by_cases hr : m.role = role
    · simp only [firstRoleContent, if_pos hr] at h
      obtain rfl : m.content = c := by injection h
      simp only [updateFirstRole, if_pos hr]
    · simp [firstRoleContent, hr] at h
      simp [updateFirstRole, hr, updateFirst_self role rest c h]

theorem updateLast_self (role : List Char) (msgs : List Msg) (c : List Char)
    (h : lastRoleContent role msgs = some c) : updateLastRole role c msgs = msgs := by
  rw [updateLastRole, updateFirst_self role msgs.reverse c h, List.reverse_reverse]

theorem hookTranslated_tag (source target content : List Char) (out : Outcome)
    (hf : isFailure out = true) :
    containsSub failTag (hookTranslated source target out content) = true := by
  cases out with
  | ok d => simp [isFailure] at hf
  | reqFail err =>
    show containsSub failTag
      (restoreAll (clean_table_delimiters
        (translate (split_text_around_table (extract content).1).1 source target
          (Outcome.reqFail err) ++ (split_text_around_table (extract content).1).2))
        (extract content).2) = true
    apply restoreAll_tag
    rw [clean_id]
    apply containsSub_monoL
    show containsSub failTag
      ((split_text_around_table (extract content).1).1 ++ failSep ++ failTag ++ [' '] ++
        apiErrHead ++ err ++ [']']) = true
    have := contains_mid failTag
      ((split_text_around_table (extract content).1).1 ++ failSep)
      ([' '] ++ (apiErrHead ++ (err ++ [']'])))
    simpa [List.append_assoc] using this
  | unexpFail err =>
    show containsSub failTag
      (restoreAll (clean_table_delimiters
        (translate (split_text_around_table (extract content).1).1 source target
          (Outcome.unexpFail err) ++ (split_text_around_table (extract content).1).2))
        (extract content).2) = true
    apply restoreAll_tag
    rw [clean_id]
    apply containsSub_monoL
    show containsSub failTag
      ((split_text_around_table (extract content).1).1 ++ failSep ++ failTag ++ [' '] ++
        unexpErrHead ++ err ++ [']']) = true
    have := contains_mid failTag
      ((split_text_around_table (extract content).1).1 ++ failSep)
      ([' '] ++ (unexpErrHead ++ (err ++ [']'])))
    simpa [List.append_assoc] using this

/-! ### The claims -/

/-- C1 counterexample: the claim as stated is false.  The text
`__CODE_BLOCK` followed by one fenced region `x` does not contain the
placeholder token, yet extract followed by restore does not reproduce
it: masking yields `__CODE_BLOCK__CODE_BLOCK__`, whose leftmost
placeholder occurrence starts at the old prefix, so restoration puts
the code block in the wrong place. -/
theorem c1_counterexample :
    containsSub placeholder sampleOne = false ∧
    restoreAll (extract sampleOne).1 (extract sampleOne).2 ≠ sampleOne := by decide

/-- C1 (amended): for every text in which the substring `CODE_BLOCK`
does not occur (in particular the placeholder token does not occur and
masking cannot create a spurious occurrence), extracting the fenced
code regions and then restoring the placeholders in order reproduces
the original text. -/
theorem c1_roundtrip (t : List Char) (h : containsSub cbCore t = false) :
    restoreAll (extract t).1 (extract t).2 = t :=
  roundtripAux t.length t le_rfl h

/-- C1 witness: the amended round trip at a concrete two-region text. -/
theorem c1_roundtrip_witness :
    containsSub cbCore sampleTwo = false ∧
    restoreAll (extract sampleTwo).1 (extract sampleTwo).2 = sampleTwo :=
  ⟨by decide, c1_roundtrip sampleTwo (by decide)⟩

/-- C2: whenever the outbound call fails (request exception or any other
exception), `translate` returns - it never raises, being a total
function here - the original input text followed by an annotation that
contains the literal failure marker `[翻译失败:`. -/
theorem c2_translate_failure (text source target : List Char) (o : Outcome)
    (h : isFailure o = true) :
    ∃ ann, translate text source target o = text ++ ann ∧
      containsSub failTag ann = true := by
  cases o with
  | ok d => simp [isFailure] at h
  | reqFail e =>
    refine ⟨failSep ++ (failTag ++ ([' '] ++ (apiErrHead ++ (e ++ [']'])))), ?_, ?_⟩
    · simp [translate, List.append_assoc]
    · exact containsSub_monoR failTag failSep _
        (contains_of_isPref _ _ (isPref_append failTag _))
  | unexpFail e =>
    refine ⟨failSep ++ (failTag ++ ([' '] ++ (unexpErrHead ++ (e ++ [']'])))), ?_, ?_⟩
    · simp [translate, List.append_assoc]
    · exact containsSub_monoR failTag failSep _
        (contains_of_isPref _ _ (isPref_append failTag _))

/-- C2 witness: the failure annotation at a concrete failing call. -/
theorem c2_translate_failure_witness :
    ∃ ann, translate ['h'] ['a'] ['b'] (Outcome.reqFail ['e']) = ['h'] ++ ann ∧
      containsSub failTag ann = true :=
  c2_translate_failure ['h'] ['a'] ['b'] (Outcome.reqFail ['e']) (by decide)

/-- C3: when the languages differ and a message of the role exists, a
failing translation client makes the hook leave the message list
exactly as it was (the failure tag is never written into the message),
and a result free of the failure tag is committed to the located
message. -/
theorem c3_hook_commit (role source target content : List Char) (out : Outcome)
    (msgs : List Msg) (hc : lastRoleContent role msgs = some content)
    (hne : ¬ source = target) :
    (isFailure out = true → runHook role source target out msgs = .ok msgs) ∧
    (containsSub failTag (hookTranslated source target out content) = false →
      runHook role source target out msgs =
        .ok (updateLastRole role (hookTranslated source target out content) msgs)) := by
  constructor
  · intro hf
    have htag := hookTranslated_tag source target content out hf
    simp only [runHook, hc]
    simp [hne, htag]
  · intro hnt
    simp only [runHook, hc]
    simp [hne, hnt]

/-- C3 witness: a concrete failing call leaves the message list as is. -/
theorem c3_hook_commit_witness :
    runHook userRole ['a'] ['b'] (Outcome.reqFail ['x']) msgsDemo =
      HookResult.ok msgsDemo :=
  (c3_hook_commit userRole ['a'] ['b'] ['h', 'i'] (Outcome.reqFail ['x']) msgsDemo
    (by decide) (by decide)).1 (by decide)

/-- C4 counterexample: the claim as stated is false.  On a concrete
well-formed Markdown table text the mangled `table_regex` has no match
(it only matches backslashes), so the returned tableRegion is empty and
does not start at the separator line. -/
theorem c4_counterexample :
    wellFormedTable tableText = true ∧
    startsWithSepLine (split_text_around_table tableText).2 = false := by decide

/-- C4 (amended): for every text containing a well-formed Markdown
table but no backslash character, split returns the entire text as
prefix and the empty tableRegion; prefix concatenated with tableRegion
still equals the input, but the tableRegion is empty rather than
starting at the separator line. -/
theorem c4_split_no_backslash (t : List Char) (hw : wellFormedTable t = true)
    (hb : ∀ c ∈ t, ¬ c = '\\') :
    split_text_around_table t = (t, []) ∧
    (split_text_around_table t).1 ++ (split_text_around_table t).2 = t := by
  have h := split_no_bs t hb
  exact ⟨h, by rw [h]; simp⟩

/-- C4 witness: the amended claim at the concrete table text. -/
theorem c4_split_no_backslash_witness :
    wellFormedTable tableText = true ∧
    split_text_around_table tableText = (tableText, []) :=
  ⟨by decide, (c4_split_no_backslash tableText (by decide) (by decide)).1⟩

/-- C5 counterexample: the claim as stated is false.  On a message list
without a message of the target role the hook does not return normally:
the host helper yields none and the code-block regex stage raises, so
an exception escapes the hook. -/
theorem c5_counterexample :
    inlet vDemo (Outcome.ok ['d']) [] = HookResult.raised [] ∧
    inlet vDemo (Outcome.ok ['d']) [] ≠ HookResult.ok [] := by decide

/-- C5 (amended): each hook scans the message list from the end backward
and mutates at most the first message whose role matches its target
role - the result is always an update of the last matching message -
and no exception escapes in that case; but when no message of the role
exists the hook raises (with the list unmutated) instead of being a
no-op. -/
theorem c5_hook_mutation (role source target : List Char) (out : Outcome)
    (msgs : List Msg) :
    (lastRoleContent role msgs = none →
      runHook role source target out msgs = .raised msgs) ∧
    (∀ content, lastRoleContent role msgs = some content →
      ∃ t, runHook role source target out msgs =
        .ok (updateLastRole role t msgs)) := by
  constructor
  · intro h
    simp [runHook, h]
  · intro content h
    simp only [runHook, h]
    by_cases hst : source = target
    · exact ⟨content, by simp [hst, updateLast_self role msgs content h]⟩
    · cases htag : containsSub failTag (hookTranslated source target out content) with
      | true =>
        exact ⟨content, by simp [hst, htag, updateLast_self role msgs content h]⟩
      | false =>
        exact ⟨hookTranslated source target out content, by simp [hst, htag]⟩

/-- C5 witness: both parts of the amended claim at concrete inputs. -/
theorem c5_hook_mutation_witness :
    runHook userRole ['a'] ['b'] (Outcome.ok ['d']) [] = HookResult.raised [] ∧
    ∃ t, runHook userRole ['a'] ['b'] (Outcome.ok ['d']) msgsDemo =
      HookResult.ok (updateLastRole userRole t msgsDemo) :=
  ⟨(c5_hook_mutation userRole ['a'] ['b'] (Outcome.ok ['d']) []).1 (by decide),
   (c5_hook_mutation userRole ['a'] ['b'] (Outcome.ok ['d']) msgsDemo).2
     ['h', 'i'] (by decide)⟩

/-- C6: when the configured source language equals the configured target
language for a hook's direction, that hook leaves every message in the
list unchanged (also in the exceptional no-message case, where the list
is returned as it stood). -/
theorem c6_noop_when_equal (v : Valves) (out : Outcome) (msgs : List Msg) :
    (v.source_user = v.target_user → msgsOf (inlet v out msgs) = msgs) ∧
    (v.source_assistant = v.target_assistant → msgsOf (outlet v out msgs) = msgs) := by
  constructor
  · intro h
    cases hc : lastRoleContent userRole msgs with
    | none => simp [inlet, runHook, hc, msgsOf]
    | some content => simp [inlet, runHook, hc, h, msgsOf]
  · intro h
    cases hc : lastRoleContent assistantRole msgs with
    | none => simp [outlet, runHook, hc, msgsOf]
    | some content => simp [outlet, runHook, hc, h, msgsOf]

/-- C6 witness: both directions at a configuration with equal languages. -/
theorem c6_noop_when_equal_witness :
    msgsOf (inlet vSame (Outcome.ok ['d']) msgsDemo) = msgsDemo ∧
    msgsOf (outlet vSame (Outcome.ok ['d']) msgsDemo) = msgsDemo :=
  ⟨(c6_noop_when_equal vSame (Outcome.ok ['d']) msgsDemo).1 (by decide),
   (c6_noop_when_equal vSame (Outcome.ok ['d']) msgsDemo).2 (by decide)⟩

/-- C7: evaluation of the code at the failing input.  The text `a\b`
contains no pipe character, yet split does not return the whole text
with an empty tableRegion: the mangled regex matches the backslash, the
prefix is empty, the tableRegion is `a\`, and the trailing `b` is
dropped. -/
theorem c7_split_backslash :
    bsText.contains '|' = false ∧
    split_text_around_table bsText = ([], ['a', '\\']) := by decide

/-- C8 counterexample: the claim as stated is false.  The text that is
the placeholder token itself has no fenced region, so the stash is
empty, but the processed text contains one placeholder occurrence. -/
theorem c8_counterexample :
    countOcc placeholder (extract placeholder).1 ≠ (extract placeholder).2.length := by
  decide

/-- C8 (amended): for every input text in which the substring
`CODE_BLOCK` does not occur, the number of (non-overlapping)
placeholder occurrences in the processed text equals the length of the
code-block stash. -/
theorem c8_count (t : List Char) (h : containsSub cbCore t = false) :
    countOcc placeholder (extract t).1 = (extract t).2.length :=
  countAux t.length t (extract t).1.length le_rfl h le_rfl

/-- C8 witness: the amended invariant at a concrete one-region text. -/
theorem c8_count_witness :
    containsSub cbCore sampleThree = false ∧
    countOcc placeholder (extract sampleThree).1 = (extract sampleThree).2.length :=
  ⟨by decide, c8_count sampleThree (by decide)⟩

/-- C9: evaluation of the code at the failing input.  On `| - |`, a run
of whitespace adjacent to a table-separator dash, the cleanup returns
the input unchanged instead of collapsing the whitespace into hyphens:
the mangled pattern only ever matches runs of backslashes, which
contain no space. -/
theorem c9_clean_noop : clean_table_delimiters spacedSep = spacedSep := by decide

/-- C10: failure detection is a substring test only.  A genuinely
successful translation whose text contains the literal failure marker
is classified as failed: the hook leaves the original message content
in place even though the client returned a real translation different
from the original. -/
theorem c10_tag_false_positive :
    isFailure (Outcome.ok tagData) = false ∧
    hookTranslated vDemo.source_user vDemo.target_user (Outcome.ok tagData)
      ['h', 'i'] ≠ ['h', 'i'] ∧
    inlet vDemo (Outcome.ok tagData) msgsDemo = HookResult.ok msgsDemo := by decide

end DeepLX
